import Mathlib

/-!
Shallow embedding of the OverwatchLooker audio detector
(`src/overwatchlooker/audio_listener.py`) together with proofs of the
specification claims about it.

The embedding maps:
* numpy float arrays to `List ℝ` (exact real arithmetic);
* `_ncc_1d` to `ncc_1d`;
* the hop loop of `AudioListener._run_loop` (ring-buffer accumulation,
  cooldown gate, energy gate, scoring, confirmation state machine) to
  `iterStep` / `hopProcess` / `scoreDecide`;
* the reconnect supervisor of `AudioListener._run` to `nextReconnectDelay`
  and `runWorker`;
* `AudioListener.start` / `stop` to `startListener` / `stopListener`.

Decision logic that only compares scores is kept polymorphic over a
`LinearOrderedField` so that it is executable over `ℚ` while the signal
math itself lives over `ℝ`.
-/

namespace OverwatchLooker

/-! ### Configuration surface (src/overwatchlooker/config.py)

`DetectConfig` collects the externally supplied constants consumed by
`AudioListener._run_loop`.  `defaultConfig` holds the shipped values. -/

structure DetectConfig (R : Type) where
  cooldownSeconds : R
  matchThreshold : R
  matchMargin : R
  confirmHops : ℕ
  minRms : R

def defaultConfig : DetectConfig ℚ :=
  { cooldownSeconds := 30
    matchThreshold := 1 / 4
    matchMargin := 1 / 10
    confirmHops := 2
    minRms := 1 / 2000 }

/-- The shipped configuration read as real constants, as `_run_loop`
consumes it. -/
noncomputable def defaultConfigR : DetectConfig ℝ :=
  { cooldownSeconds := 30
    matchThreshold := 1 / 4
    matchMargin := 1 / 10
    confirmHops := 2
    minRms := 1 / 2000 }

/-- Sample rate fixed by the capture backend (`_SAMPLE_RATE = 48000`). -/
def sampleRate : ℕ := 48000

/-! ### Audio math helpers (`_ncc_1d`, RMS)

Mirrors the numpy expressions of `_ncc_1d` and the RMS computation in
`_run_loop`, with arrays as `List ℝ`. -/

/-- The length-`n` window of `l` starting at offset `o` (numpy slice
`l[o : o + n]`). -/
def window (l : List ℝ) (o n : ℕ) : List ℝ := (l.drop o).take n

/-- Maximum of a list of reals (`np.max`); the `[]` case never arises in use. -/
noncomputable def listMax : List ℝ → ℝ
  | [] => 0
  | [x] => x
  | x :: y :: t => max x (listMax (y :: t))

/-- Arithmetic mean of a list (`np.ndarray.mean`). -/
noncomputable def sampleMean (l : List ℝ) : ℝ := l.sum / l.length

/-- Population variance, mean of squared deviations (`np.ndarray.var`). -/
noncomputable def sampleVar (l : List ℝ) : ℝ :=
  ((l.map fun x => (x - sampleMean l) ^ 2).sum) / l.length

/-- Population standard deviation (`np.ndarray.std`). -/
noncomputable def sampleStd (l : List ℝ) : ℝ := Real.sqrt (sampleVar l)

/-- RMS energy of the ring buffer: `np.sqrt(np.mean(ring_buffer ** 2))`. -/
noncomputable def rms (l : List ℝ) : ℝ :=
  Real.sqrt (((l.map fun x => x ^ 2).sum) / l.length)

/-- The entry of the `ncc` array of `_ncc_1d` at offset `o`.

`corr = fftconvolve(chunk, ref_centered[::-1], mode='valid')` evaluated at
offset `o` is the dot product of `window chunk o n` with the centered
reference, and the sliding sums `chunk_sum` / `chunk_sq_sum` at offset `o`
are the window's sum and sum of squares; this definition writes those
convolution entries directly as window sums. -/
noncomputable def nccAt (chunk ref : List ℝ) (o : ℕ) : ℝ :=
  let n : ℕ := ref.length
  let w := window chunk o n
  let corr := (List.zipWith (· * ·) w (ref.map fun x => x - sampleMean ref)).sum
  let chunkVar := ((w.map fun x => x ^ 2).sum) / n - (w.sum / n) ^ 2
  let chunkStd := Real.sqrt (max chunkVar 1e-10)
  corr / (chunkStd * sampleStd ref * n)

/-- Time-domain normalized cross-correlation `_ncc_1d(chunk, ref)`:
reject a chunk shorter than the reference and a near-silent reference with
a hard 0, otherwise the peak of the per-offset normalized correlations
over all `len(chunk) - n + 1` valid offsets. -/
noncomputable def ncc_1d (chunk ref : List ℝ) : ℝ :=
  if chunk.length < ref.length then 0
  else if sampleStd ref < 1e-8 then 0
  else listMax ((List.range (chunk.length - ref.length + 1)).map (nccAt chunk ref))

/-! ### Hop accumulator / ring buffer (`_run_loop`, lines 252-269) -/

/-- The final `n` elements of a list (numpy slice `l[-n:]` for `0 < n ≤ len`). -/
def takeLast {α : Type} (n : ℕ) (l : List α) : List α := l.drop (l.length - n)

/-- One ring-buffer update: clamp the merged hop to the buffer size, rotate
the buffer left by the merged length (`np.roll(ring_buffer, -n)`) and write
the merged samples into the freed tail (`ring_buffer[-n:] = merged`). -/
def ringUpdate {α : Type} (bufferSamples : ℕ) (ring merged0 : List α) : List α :=
  let merged := if bufferSamples < merged0.length
    then merged0.drop (merged0.length - bufferSamples) else merged0
  let n := merged.length
  let rolled := ring.drop n ++ ring.take n
  rolled.take (rolled.length - n) ++ merged

/-- Accumulator state: ring buffer plus the pending chunk list and its
running sample count. -/
structure AccState (α : Type) where
  ring : List α
  pending : List (List α)
  pendingLen : ℕ
deriving DecidableEq

/-- Feed one raw mono chunk to the accumulator: append it to `pending`;
once at least one hop's worth of samples is pending, merge
(`np.concatenate`), clear the accumulator, and update the ring buffer. -/
def feedChunk {α : Type} (hopSamples bufferSamples : ℕ) (st : AccState α)
    (chunk : List α) : AccState α :=
  let pending := st.pending ++ [chunk]
  let pendingLen := st.pendingLen + chunk.length
  if pendingLen < hopSamples then
    { st with pending := pending, pendingLen := pendingLen }
  else
    { ring := ringUpdate bufferSamples st.ring pending.flatten
      pending := []
      pendingLen := 0 }

/-- Feed a whole sequence of chunks. -/
def feedChunks {α : Type} (hopSamples bufferSamples : ℕ) (st : AccState α)
    (chunks : List (List α)) : AccState α :=
  chunks.foldl (feedChunk hopSamples bufferSamples) st

/-! ### Confirmation state machine (`_run_loop`, lines 286-331)

Score comparison logic is polymorphic in the ordered field `R`. -/

/-- Confirmation state: current candidate label and its consecutive count. -/
structure ConfirmSt where
  label : Option String
  count : ℕ
deriving DecidableEq

/-- The idle confirmation state (`confirm_label = None, confirm_count = 0`). -/
def idleConfirm : ConfirmSt := { label := none, count := 0 }

variable {R : Type} [LinearOrderedField R]

/-- Comparison used to rank scores descending
(`sorted(scores.items(), key=lambda x: x[1], reverse=True)`). -/
def scoreGE (a b : String × R) : Prop := b.2 ≤ a.2

instance : DecidableRel (scoreGE (R := R)) :=
  fun a b => inferInstanceAs (Decidable (b.2 ≤ a.2))

/-- Rank the per-label scores in descending score order (stable, like
Python's `sorted` with `reverse=True`). -/
def rankDesc (scores : List (String × R)) : List (String × R) :=
  scores.insertionSort scoreGE

/-- Margin rejection: a runner-up exists and the best score beats it by
less than the configured margin. -/
def marginTooSmall (cfg : DetectConfig R) (bestScore : R) :
    List (String × R) → Bool
  | [] => false
  | (_, runnerScore) :: _ => decide (bestScore - runnerScore < cfg.matchMargin)

/-- Hysteresis step: if the accepted label equals the current candidate,
increment the consecutive count; otherwise replace the candidate and reset
the count to 1. -/
def updateCandidate (best : String) (st : ConfirmSt) : ConfirmSt :=
  if some best = st.label then { label := st.label, count := st.count + 1 }
  else { label := some best, count := 1 }

/-- The scoring/confirmation tail of one hop (`_run_loop` lines 291-331):
rank the scores, apply the threshold and margin gates, update the
hysteresis state and fire once the consecutive count reaches the
confirm-hop count.  Returns the new confirmation state and the fired
label, if any. -/
def scoreDecide (cfg : DetectConfig R) (scores : List (String × R))
    (st : ConfirmSt) : ConfirmSt × Option String :=
  match rankDesc scores with
  | [] => (st, none)
  | (bestLabel, bestScore) :: rest =>
    if bestScore < cfg.matchThreshold then (idleConfirm, none)
    else if marginTooSmall cfg bestScore rest then (idleConfirm, none)
    else
      let st1 := updateCandidate bestLabel st
      if st1.count < cfg.confirmHops then (st1, none)
      else (idleConfirm, some bestLabel)

/-- The label accepted by the threshold and margin gates of a hop, if any. -/
def accepted (cfg : DetectConfig R) (scores : List (String × R)) :
    Option String :=
  match rankDesc scores with
  | [] => none
  | (bestLabel, bestScore) :: rest =>
    if bestScore < cfg.matchThreshold then none
    else if marginTooSmall cfg bestScore rest then none
    else some bestLabel

/-- Run the scoring/confirmation step over a sequence of hops, collecting
every fired label in order. -/
def runDecide (cfg : DetectConfig R) (st : ConfirmSt) :
    List (List (String × R)) → ConfirmSt × List String
  | [] => (st, [])
  | scores :: hops =>
    match scoreDecide cfg scores st with
    | (st1, none) => runDecide cfg st1 hops
    | (st1, some l) =>
      let rest := runDecide cfg st1 hops
      (rest.1, l :: rest.2)

/-! ### The hop loop (`_run_loop`, lines 236-331) -/

/-- Mutable state of one `_run_loop` invocation. -/
structure LoopState where
  ring : List ℝ
  pending : List (List ℝ)
  pendingLen : ℕ
  confirm : ConfirmSt
  lastTrigger : ℝ
  lastLoud : ℝ

/-- What one loop iteration does after (possibly) updating state. -/
inductive HopResult
  | cont
  | brk
  | fired (label : String)
deriving DecidableEq

/-- Local constant `silence_reconnect_threshold = 30.0` of `_run_loop`. -/
def silenceReconnectThreshold : ℝ := 30

/-- Per-hop scores: `_ncc_1d(ring_buffer, ref_samples)` for every loaded
reference. -/
noncomputable def computeScores (refs : List (String × List ℝ))
    (ring : List ℝ) : List (String × ℝ) :=
  refs.map fun lr => (lr.1, ncc_1d ring lr.2)

/-- The per-hop tail of `_run_loop` (lines 271-331), entered once a full
hop has been merged into the ring buffer: cooldown gate, energy gate with
silence-reconnect check, scoring, and the confirmation state machine. -/
noncomputable def hopProcess (cfg : DetectConfig ℝ)
    (refs : List (String × List ℝ)) (now : ℝ) (st : LoopState) :
    LoopState × HopResult :=
  if now - st.lastTrigger < cfg.cooldownSeconds then (st, .cont)
  else if rms st.ring < cfg.minRms then
    if silenceReconnectThreshold < now - st.lastLoud then (st, .brk)
    else (st, .cont)
  else
    match scoreDecide cfg (computeScores refs st.ring) st.confirm with
    | (c, none) => ({ st with lastLoud := now, confirm := c }, .cont)
    | (c, some l) =>
      ({ st with lastLoud := now, confirm := c, lastTrigger := now }, .fired l)

/-- Result of one `capture.read` call as seen by the loop body. -/
inductive ReadResult
  | empty
  | fault
  | data (chunk : List ℝ)

/-- One full iteration of the `while` body of `_run_loop`: a read fault
breaks out (to be handled by the supervisor), an empty read continues,
and a data chunk is accumulated — once a hop's worth is pending it is
merged into the ring buffer and `hopProcess` runs. -/
noncomputable def iterStep (cfg : DetectConfig ℝ) (hopSamples bufferSamples : ℕ)
    (refs : List (String × List ℝ)) (now : ℝ) (r : ReadResult)
    (st : LoopState) : LoopState × HopResult :=
  match r with
  | .fault => (st, .brk)
  | .empty => (st, .cont)
  | .data chunk =>
    let pending := st.pending ++ [chunk]
    let pendingLen := st.pendingLen + chunk.length
    if pendingLen < hopSamples then
      ({ st with pending := pending, pendingLen := pendingLen }, .cont)
    else
      let st1 := { st with
        ring := ringUpdate bufferSamples st.ring pending.flatten
        pending := []
        pendingLen := 0 }
      hopProcess cfg refs now st1

/-! ### Reconnect supervisor (`_run`, lines 172-205) -/

/-- How one `_run_loop` invocation ended: all three exits use `break` or
the `while` condition, so control returns to `_run` without an exception. -/
inductive LoopExit
  | readFault
  | silenceTimeout
  | stopRequested
deriving DecidableEq

/-- How one connection attempt ended at the supervisor: either an
exception reached the `except` clause of `_run` (session construction or
start failed, or an exception escaped `_run_loop`), or `_run_loop`
returned normally. -/
inductive AttemptResult
  | sessionFault
  | loopReturn (e : LoopExit)
deriving DecidableEq

/-- `_PID_POLL_INTERVAL = 2.0`, the base reconnect delay. -/
def pidPollInterval : ℚ := 2

/-- The backoff cap (`min(reconnect_delay * 2, 30.0)`). -/
def backoffCap : ℚ := 30

/-- The supervisor's reconnect-delay update after one connection attempt:
on an exception, double the delay capped at 30 s; when `_run_loop`
returned normally (whatever made it stop), reset to the poll interval. -/
def nextReconnectDelay (d : ℚ) : AttemptResult → ℚ
  | .sessionFault => min (d * 2) backoffCap
  | .loopReturn _ => pidPollInterval

/-! ### Worker entry (`_run`, lines 159-205) at attempt granularity -/

/-- Observable actions of the worker. -/
inductive WorkerEv
  | pidPoll
  | pidVerify
  | captureOpen
  | callbackEv (label : String)
  | reconnectSleep
deriving DecidableEq

/-- Environment oracle for one connection attempt: what the process poll
returned (`none` models the listener being stopped during the wait), what
the re-verification poll returned, and which labels the hop loop fired. -/
structure AttemptEnv where
  foundPid : Option ℕ
  verifiedPid : Option ℕ
  callbacks : List String

/-- The supervisor `while` loop of `_run`, fuel-bounded: wait for the
process, re-verify its pid, open a capture session and run the hop loop,
then sleep and retry. -/
def runAttempts (env : ℕ → AttemptEnv) : ℕ → ℕ → List WorkerEv
  | 0, _ => []
  | fuel + 1, k =>
    match (env k).foundPid with
    | none => [.pidPoll]
    | some pid =>
      if (env k).verifiedPid = some pid then
        .pidPoll :: .pidVerify :: .captureOpen ::
          ((env k).callbacks.map WorkerEv.callbackEv ++
            .reconnectSleep :: runAttempts env fuel (k + 1))
      else
        .pidPoll :: .pidVerify :: .reconnectSleep :: runAttempts env fuel (k + 1)

/-- `AudioListener._run`: bail out if the capture backend is unavailable;
load references; if the label map is empty, return before entering the
supervisor loop; otherwise run it. -/
def runWorker (proctapAvailable : Bool) (refs : List (String × List ℚ))
    (env : ℕ → AttemptEnv) (fuel : ℕ) : List WorkerEv :=
  if proctapAvailable = false then []
  else if refs.isEmpty then []
  else runAttempts env fuel 0

/-! ### start/stop control (`AudioListener.start` / `stop`) -/

/-- The listener's thread-control state: the `_running` flag and the
number of live worker threads. -/
structure ListenerCtl where
  running : Bool
  liveThreads : ℕ
deriving DecidableEq

/-- `start()`: a no-op while `_running` is set; otherwise set the flag and
spawn the worker thread. -/
def startListener (s : ListenerCtl) : ListenerCtl :=
  if s.running then s
  else { running := true, liveThreads := s.liveThreads + 1 }

/-- `stop()`: clear `_running` and join the worker thread. -/
def stopListener (s : ListenerCtl) : ListenerCtl :=
  { running := false, liveThreads := s.liveThreads - 1 }

/-- A public call on the listener. -/
inductive ListenerCall
  | startC
  | stopC
deriving DecidableEq

def applyCall (s : ListenerCtl) : ListenerCall → ListenerCtl
  | .startC => startListener s
  | .stopC => stopListener s

/-- A freshly constructed listener. -/
def initialListener : ListenerCtl := { running := false, liveThreads := 0 }

/-! ## Helper lemmas about list sums and maxima -/

lemma sum_sq_nonneg (l : List ℝ) : 0 ≤ (l.map fun x => x ^ 2).sum := by
  apply List.sum_nonneg
  intro z hz
  simp only [List.mem_map] at hz
  obtain ⟨w, _, rfl⟩ := hz
  positivity

lemma sum_map_add (l : List ℝ) (f g : ℝ → ℝ) :
    (l.map fun x => f x + g x).sum = (l.map f).sum + (l.map g).sum := by
  induction l with
  | nil => simp
  | cons x t ih => simp only [List.map_cons, List.sum_cons, ih]; ring

lemma sum_map_mul_left (l : List ℝ) (c : ℝ) (f : ℝ → ℝ) :
    (l.map fun x => c * f x).sum = c * (l.map f).sum := by
  induction l with
  | nil => simp
  | cons x t ih => simp only [List.map_cons, List.sum_cons, ih]; ring

lemma sum_map_sub_const (l : List ℝ) (c : ℝ) :
    (l.map fun x => x - c).sum = l.sum - l.length * c := by
  induction l with
  | nil => simp
  | cons x t ih => simp only [List.map_cons, List.sum_cons, List.length_cons, ih]
                   push_cast
                   ring

/-- The mean-centered copy of a list sums to zero. -/
lemma centered_sum (l : List ℝ) : (l.map fun x => x - sampleMean l).sum = 0 := by
  rw [sum_map_sub_const, sampleMean]
  rcases eq_or_ne l.length 0 with h | h
  · simp [List.length_eq_zero.mp h]
  · have : (l.length : ℝ) ≠ 0 := Nat.cast_ne_zero.mpr h
    field_simp

lemma sum_sq_dev (l : List ℝ) (c : ℝ) :
    (l.map fun x => (x - c) ^ 2).sum =
      (l.map fun x => x ^ 2).sum - 2 * c * l.sum + l.length * c ^ 2 := by
  induction l with
  | nil => simp
  | cons x t ih => simp only [List.map_cons, List.sum_cons, List.length_cons, ih]
                   push_cast
                   ring

/-- The sliding-sum variance expression of `_ncc_1d` agrees with the
mean-of-squared-deviations variance. -/
lemma slidingVar_eq_sampleVar (l : List ℝ) (h : l ≠ []) :
    ((l.map fun x => x ^ 2).sum) / l.length - (l.sum / l.length) ^ 2 = sampleVar l := by
  have hn : (l.length : ℝ) ≠ 0 :=
    Nat.cast_ne_zero.mpr fun h0 => h (List.length_eq_zero.mp h0)
  rw [sampleVar, sampleMean, sum_sq_dev]
  field_simp
  ring

lemma zipWith_mul_map_right (l : List ℝ) (f : ℝ → ℝ) :
    List.zipWith (· * ·) l (l.map f) = l.map fun x => x * f x := by
  induction l with
  | nil => simp
  | cons x t ih => simp [ih]

/-- Dot product of a list with its own centered copy is the sum of squared
deviations. -/
lemma self_corr (l : List ℝ) :
    (List.zipWith (· * ·) l (l.map fun x => x - sampleMean l)).sum =
      (l.map fun x => (x - sampleMean l) ^ 2).sum := by
  rw [zipWith_mul_map_right]
  have hmap : (l.map fun x => x * (x - sampleMean l)) =
      l.map fun x => (x - sampleMean l) ^ 2 + sampleMean l * (x - sampleMean l) := by
    apply List.map_congr_left
    intro x _
    ring
  rw [hmap, sum_map_add, sum_map_mul_left, centered_sum]
  ring

/-- Splitting out the window mean from a dot product with a second list of
the same length. -/
lemma corr_sub_mean (w : List ℝ) (c : ℝ) :
    ∀ rc : List ℝ, w.length = rc.length →
      (List.zipWith (· * ·) w rc).sum =
        (List.zipWith (· * ·) (w.map fun x => x - c) rc).sum + c * rc.sum := by
  induction w with
  | nil =>
    intro rc h
    have : rc = [] := List.length_eq_zero.mp h.symm
    simp [this]
  | cons x t ih =>
    intro rc h
    cases rc with
    | nil => simp at h
    | cons y u =>
      simp only [List.length_cons, Nat.succ_inj] at h
      simp only [List.map_cons, List.zipWith_cons_cons, List.sum_cons, ih u h]
      ring

/-- Cauchy-Schwarz for list dot products. -/
lemma list_cauchy_schwarz (a : List ℝ) : ∀ b : List ℝ,
    ((List.zipWith (· * ·) a b).sum) ^ 2 ≤
      (a.map fun x => x ^ 2).sum * (b.map fun x => x ^ 2).sum := by
  induction a with
  | nil => intro b; simp
  | cons x a ih =>
    intro b
    cases b with
    | nil => simp
    | cons y b =>
      simp only [List.zipWith_cons_cons, List.sum_cons, List.map_cons]
      have hA : 0 ≤ (a.map fun x => x ^ 2).sum := sum_sq_nonneg a
      have hB : 0 ≤ (b.map fun x => x ^ 2).sum := sum_sq_nonneg b
      have hD := ih b
      set D := (List.zipWith (· * ·) a b).sum
      set A := (a.map fun x => x ^ 2).sum
      set B := (b.map fun x => x ^ 2).sum
      rcases eq_or_lt_of_le hB with hB0 | hBpos
      · have hD0 : D = 0 := by nlinarith [sq_nonneg D]
        rw [hD0, ← hB0]
        nlinarith [sq_nonneg y, mul_nonneg hA (sq_nonneg y)]
      · have h1 : 0 ≤ A * B - D ^ 2 := by linarith
        nlinarith [sq_nonneg (x * B - y * D), mul_nonneg (sq_nonneg y) h1,
          mul_nonneg hB h1, mul_pos hBpos hBpos]

lemma le_listMax (l : List ℝ) (x : ℝ) (hx : x ∈ l) : x ≤ listMax l := by
  induction l with
  | nil => cases hx
  | cons a t ih =>
    cases t with
    | nil =>
      rcases List.mem_cons.mp hx with h | h
      · rw [h, listMax]
      · cases h
    | cons b u =>
      rw [listMax]
      rcases List.mem_cons.mp hx with h | h
      · exact h ▸ le_max_left _ _
      · exact le_trans (ih h) (le_max_right _ _)

lemma listMax_le (l : List ℝ) (c : ℝ) (hne : l ≠ []) (h : ∀ x ∈ l, x ≤ c) :
    listMax l ≤ c := by
  induction l with
  | nil => cases hne rfl
  | cons a t ih =>
    cases t with
    | nil => exact h a (List.mem_cons_self a [])
    | cons b u =>
      rw [listMax]
      apply max_le (h a (List.mem_cons_self a _))
      exact ih (by simp) fun x hx => h x (List.mem_cons_of_mem a hx)

/-! ## Properties of the normalized cross-correlation -/

lemma sampleVar_nonneg (l : List ℝ) : 0 ≤ sampleVar l := by
  rw [sampleVar]
  apply div_nonneg _ (Nat.cast_nonneg _)
  apply List.sum_nonneg
  intro z hz
  simp only [List.mem_map] at hz
  obtain ⟨w, _, rfl⟩ := hz
  positivity

lemma window_length (l : List ℝ) (o n : ℕ) (h : o + n ≤ l.length) :
    (window l o n).length = n := by
  simp only [window, List.length_take, List.length_drop]
  omega

lemma sum_sq_dev_eq_card_mul_var (l : List ℝ) (h : l ≠ []) :
    (l.map fun x => (x - sampleMean l) ^ 2).sum = l.length * sampleVar l := by
  have hn : (l.length : ℝ) ≠ 0 :=
    Nat.cast_ne_zero.mpr fun h0 => h (List.length_eq_zero.mp h0)
  rw [sampleVar]
  field_simp

/-- Every entry of the `ncc` array is at most 1: the numerator is a
centered dot product bounded via Cauchy-Schwarz by the true sliding
deviations, while the denominator floors the sliding variance from below
at `1e-10`. -/
lemma nccAt_le_one (chunk ref : List ℝ) (o : ℕ) (hn : 0 < ref.length)
    (ho : o + ref.length ≤ chunk.length) (hs : 0 < sampleStd ref) :
    nccAt chunk ref o ≤ 1 := by
  have hrefne : ref ≠ [] := by
    intro h0
    rw [h0] at hn
    simp at hn
  simp only [nccAt]
  set n := ref.length with hn_def
  set w := window chunk o n with hw_def
  have hwl : w.length = n := window_length chunk o n ho
  have hwne : w ≠ [] := by
    intro h0
    rw [h0] at hwl
    simp only [List.length_nil] at hwl
    omega
  set rc := ref.map fun x => x - sampleMean ref with hrc_def
  have hrcl : rc.length = n := by simp [hrc_def, hn_def]
  have hV : 0 ≤ sampleVar ref := sampleVar_nonneg ref
  have hS2 : sampleStd ref ^ 2 = sampleVar ref := by
    rw [sampleStd, Real.sq_sqrt hV]
  set cv := ((w.map fun x => x ^ 2).sum) / (n : ℝ) - (w.sum / (n : ℝ)) ^ 2 with hcv_def
  have hcv_eq : cv = sampleVar w := by
    rw [hcv_def, ← hwl]
    exact slidingVar_eq_sampleVar w hwne
  have hcs_pos : 0 < Real.sqrt (max cv 1e-10) :=
    Real.sqrt_pos.mpr (lt_of_lt_of_le (by norm_num) (le_max_right _ _))
  have hnpos : (0 : ℝ) < n := by
    rw [hn_def]
    exact_mod_cast hn
  have hdenom_pos : 0 < Real.sqrt (max cv 1e-10) * sampleStd ref * n :=
    mul_pos (mul_pos hcs_pos hs) hnpos
  rw [div_le_one hdenom_pos]
  -- the numerator equals the dot product of the centered window with `rc`
  have hrc_sum : rc.sum = 0 := centered_sum ref
  have hcorr : (List.zipWith (· * ·) w rc).sum =
      (List.zipWith (· * ·) (w.map fun x => x - sampleMean w) rc).sum := by
    rw [corr_sub_mean w (sampleMean w) rc (hwl.trans hrcl.symm), hrc_sum]
    ring
  -- Cauchy-Schwarz bound on the centered dot product
  have hcs := list_cauchy_schwarz (w.map fun x => x - sampleMean w) rc
  have hw_sq : ((w.map fun x => x - sampleMean w).map fun x => x ^ 2).sum =
      (n : ℝ) * sampleVar w := by
    rw [List.map_map]
    have : ((fun x => x ^ 2) ∘ fun x => x - sampleMean w) =
        fun x => (x - sampleMean w) ^ 2 := rfl
    rw [this, sum_sq_dev_eq_card_mul_var w hwne, hwl]
  have hrc_sq : (rc.map fun x => x ^ 2).sum = (n : ℝ) * sampleVar ref := by
    rw [hrc_def, List.map_map]
    have : ((fun x => x ^ 2) ∘ fun x => x - sampleMean ref) =
        fun x => (x - sampleMean ref) ^ 2 := rfl
    rw [this, sum_sq_dev_eq_card_mul_var ref hrefne, hn_def]
  have hbound : ((List.zipWith (· * ·) w rc).sum) ^ 2 ≤
      ((n : ℝ) * sampleVar w) * ((n : ℝ) * sampleVar ref) := by
    rw [hcorr, ← hw_sq, ← hrc_sq]
    exact hcs
  -- the squared denominator dominates
  have hvw : 0 ≤ sampleVar w := sampleVar_nonneg w
  have hdenom_sq : (Real.sqrt (max cv 1e-10) * sampleStd ref * n) ^ 2 =
      max cv 1e-10 * sampleVar ref * (n : ℝ) ^ 2 := by
    rw [mul_pow, mul_pow, Real.sq_sqrt (le_trans (by norm_num) (le_max_right cv 1e-10)), hS2]
  have hmax_ge : sampleVar w ≤ max cv 1e-10 := hcv_eq ▸ le_max_left cv 1e-10
  have hsq_le : ((List.zipWith (· * ·) w rc).sum) ^ 2 ≤
      (Real.sqrt (max cv 1e-10) * sampleStd ref * n) ^ 2 := by
    rw [hdenom_sq]
    calc ((List.zipWith (· * ·) w rc).sum) ^ 2
        ≤ ((n : ℝ) * sampleVar w) * ((n : ℝ) * sampleVar ref) := hbound
      _ = sampleVar w * sampleVar ref * (n : ℝ) ^ 2 := by ring
      _ ≤ max cv 1e-10 * sampleVar ref * (n : ℝ) ^ 2 := by
          apply mul_le_mul_of_nonneg_right _ (by positivity)
          exact mul_le_mul_of_nonneg_right hmax_ge hV
  calc (List.zipWith (· * ·) w rc).sum ≤ |(List.zipWith (· * ·) w rc).sum| :=
        le_abs_self _
    _ = Real.sqrt (((List.zipWith (· * ·) w rc).sum) ^ 2) :=
        (Real.sqrt_sq_eq_abs _).symm
    _ ≤ Real.sqrt ((Real.sqrt (max cv 1e-10) * sampleStd ref * n) ^ 2) :=
        Real.sqrt_le_sqrt hsq_le
    _ = |Real.sqrt (max cv 1e-10) * sampleStd ref * n| := Real.sqrt_sq_eq_abs _
    _ = Real.sqrt (max cv 1e-10) * sampleStd ref * n := abs_of_pos hdenom_pos

/-- At an offset where the window holds exactly the reference, the `ncc`
entry is exactly 1 (the variance floor is inactive because the reference
variance is at least `1e-10`). -/
lemma nccAt_self (chunk ref : List ℝ) (o : ℕ) (hn : 0 < ref.length)
    (hw : window chunk o ref.length = ref) (hv : 1e-10 ≤ sampleVar ref) :
    nccAt chunk ref o = 1 := by
  have hne : ref ≠ [] := by
    intro h
    rw [h] at hn
    simp at hn
  have hV0 : (0 : ℝ) < sampleVar ref := lt_of_lt_of_le (by norm_num) hv
  have hnR : (0 : ℝ) < (ref.length : ℝ) := by exact_mod_cast hn
  simp only [nccAt, hw]
  rw [self_corr, slidingVar_eq_sampleVar ref hne, max_eq_left hv,
    sum_sq_dev_eq_card_mul_var ref hne, sampleStd, Real.mul_self_sqrt hV0.le]
  field_simp
  ring

/-- Self-correlation: when the chunk contains the reference verbatim at
offset `o` and the reference variance clears the window floor, `_ncc_1d`
returns exactly 1. -/
lemma ncc_self_aux (chunk ref : List ℝ) (o : ℕ) (hn : 0 < ref.length)
    (ho : o + ref.length ≤ chunk.length) (hw : window chunk o ref.length = ref)
    (hv : 1e-10 ≤ sampleVar ref) : ncc_1d chunk ref = 1 := by
  have hlen : ¬ chunk.length < ref.length := by omega
  have hsqrt_eps : Real.sqrt 1e-10 = 1e-5 := by
    rw [show (1e-10 : ℝ) = (1e-5) ^ 2 by norm_num, Real.sqrt_sq (by norm_num)]
  have hstd_ge : (1e-8 : ℝ) ≤ sampleStd ref := by
    rw [sampleStd]
    calc (1e-8 : ℝ) ≤ 1e-5 := by norm_num
      _ = Real.sqrt 1e-10 := hsqrt_eps.symm
      _ ≤ Real.sqrt (sampleVar ref) := Real.sqrt_le_sqrt hv
  rw [ncc_1d, if_neg hlen, if_neg (not_lt.mpr hstd_ge)]
  apply le_antisymm
  · apply listMax_le
    · simp only [ne_eq, List.map_eq_nil_iff, List.range_eq_nil]
      omega
    · intro x hx
      simp only [List.mem_map, List.mem_range] at hx
      obtain ⟨j, hj, rfl⟩ := hx
      exact nccAt_le_one chunk ref j hn (by omega)
        (lt_of_lt_of_le (by norm_num) hstd_ge)
  · have h1 : nccAt chunk ref o = 1 := nccAt_self chunk ref o hn hw hv
    rw [← h1]
    apply le_listMax
    simp only [List.mem_map, List.mem_range]
    exact ⟨o, by omega, rfl⟩

/-- Concrete self-correlation instance reused by hop-loop witnesses. -/
lemma ncc_eval_example : ncc_1d [0, 0, 2, 0] [2, 0] = 1 := by
  apply ncc_self_aux [0, 0, 2, 0] [2, 0] 2
  · norm_num
  · norm_num
  · rfl
  · have : sampleVar [2, 0] = 1 := by
      norm_num [sampleVar, sampleMean]
    rw [this]
    norm_num

/-! ## Claim theorems -/

/-- C4: for every reference waveform with non-degenerate variance, the NCC
score against a ring buffer containing exactly that waveform at any offset
is 1 in exact real arithmetic — the per-offset normalized correlations are
all at most 1 and the matching offset attains 1. -/
theorem ncc_self_correlation (chunk ref : List ℝ) (o : ℕ) (hn : 0 < ref.length)
    (ho : o + ref.length ≤ chunk.length) (hw : window chunk o ref.length = ref)
    (hv : 1e-10 ≤ sampleVar ref) : ncc_1d chunk ref = 1 :=
  ncc_self_aux chunk ref o hn ho hw hv

theorem ncc_self_correlation_witness :
    0 < ([2, 0] : List ℝ).length ∧
    2 + ([2, 0] : List ℝ).length ≤ ([0, 0, 2, 0] : List ℝ).length ∧
    window [0, 0, 2, 0] 2 ([2, 0] : List ℝ).length = [2, 0] ∧
    (1e-10 : ℝ) ≤ sampleVar [2, 0] ∧
    ncc_1d [0, 0, 2, 0] [2, 0] = 1 := by
  refine ⟨by norm_num, by norm_num, rfl, ?_, ?_⟩
  · have : sampleVar [2, 0] = 1 := by
      norm_num [sampleVar, sampleMean]
    rw [this]
    norm_num
  · apply ncc_self_correlation [0, 0, 2, 0] [2, 0] 2 (by norm_num) (by norm_num) rfl
    have : sampleVar [2, 0] = 1 := by
      norm_num [sampleVar, sampleMean]
    rw [this]
    norm_num

/-- C6: the NCC scorer returns a hard 0 (and, being a total function,
raises nothing) when the ring buffer is shorter than the reference, and a
hard 0 when the reference standard deviation is below the `1e-8`
degeneracy guard. -/
theorem ncc_hard_zero_guards (chunk ref : List ℝ) :
    (chunk.length < ref.length → ncc_1d chunk ref = 0) ∧
    (sampleStd ref < 1e-8 → ncc_1d chunk ref = 0) := by
  constructor
  · intro h
    simp [ncc_1d, h]
  · intro h
    by_cases hlen : chunk.length < ref.length
    · simp [ncc_1d, hlen]
    · simp [ncc_1d, hlen, h]

theorem ncc_hard_zero_guards_witness :
    (([1] : List ℝ).length < ([1, 2] : List ℝ).length ∧ ncc_1d [1] [1, 2] = 0) ∧
    (sampleStd [5, 5] < 1e-8 ∧ ncc_1d [1] [5, 5] = 0) := by
  have hstd : sampleStd [5, 5] < 1e-8 := by
    have hv : sampleVar [5, 5] = 0 := by
      norm_num [sampleVar, sampleMean]
    rw [sampleStd, hv, Real.sqrt_zero]
    norm_num
  exact ⟨⟨by norm_num, (ncc_hard_zero_guards [1] [1, 2]).1 (by norm_num)⟩,
    ⟨hstd, (ncc_hard_zero_guards [1] [5, 5]).2 hstd⟩⟩

/-- C7 counterexample: a capture read fault makes `_run_loop` `break`, so
`_run` treats the attempt as a successful run and resets the delay to the
base poll interval instead of doubling it as the claim states. -/
theorem backoff_readFault_counterexample :
    nextReconnectDelay 4 (.loopReturn .readFault) = 2 ∧
    min ((4 : ℚ) * 2) backoffCap = 8 ∧ (2 : ℚ) ≠ 8 := by
  refine ⟨rfl, ?_, by norm_num⟩
  rw [backoffCap]
  norm_num

/-- C7 (amended): only an exception reaching the supervisor (session
construction/start failure, or an exception escaping the hop loop) doubles
the retry delay, capped at 30 s, hence non-decreasing up to the cap; any
attempt whose hop loop returned normally — including one ended by a
handled read fault — resets the delay to the base poll interval. -/
theorem backoff_monotone_amended :
    (∀ d : ℚ, 0 ≤ d → d ≤ backoffCap →
      d ≤ nextReconnectDelay d .sessionFault ∧
        nextReconnectDelay d .sessionFault ≤ backoffCap) ∧
    (∀ (d : ℚ) (e : LoopExit),
      nextReconnectDelay d (.loopReturn e) = pidPollInterval) := by
  constructor
  · intro d h0 hcap
    constructor
    · exact le_min (by linarith) hcap
    · exact min_le_right _ _
  · intro d e
    rfl

theorem backoff_monotone_amended_witness :
    ((0 : ℚ) ≤ 4 ∧ (4 : ℚ) ≤ backoffCap) ∧
    (4 ≤ nextReconnectDelay 4 .sessionFault ∧
      nextReconnectDelay 4 .sessionFault ≤ backoffCap) ∧
    nextReconnectDelay 4 (.loopReturn .silenceTimeout) = pidPollInterval := by
  have h1 : (0 : ℚ) ≤ 4 := by norm_num
  have h2 : (4 : ℚ) ≤ backoffCap := by rw [backoffCap]; norm_num
  exact ⟨⟨h1, h2⟩, backoff_monotone_amended.1 4 h1 h2,
    backoff_monotone_amended.2 4 .silenceTimeout⟩

/-- C8: with an empty label→clip map the worker returns before its
supervisor loop: no process poll, no capture open, no callback — the event
trace is empty for every environment and fuel. -/
theorem empty_refs_refuse_start (proctapAvailable : Bool)
    (env : ℕ → AttemptEnv) (fuel : ℕ) :
    runWorker proctapAvailable [] env fuel = [] := by
  rw [runWorker]
  rcases proctapAvailable with _ | _ <;> simp

/-! ### start/stop properties -/

lemma applyCall_thread_invariant (s : ListenerCtl)
    (h : s.liveThreads = if s.running then 1 else 0) (c : ListenerCall) :
    (applyCall s c).liveThreads = if (applyCall s c).running then 1 else 0 := by
  cases c with
  | startC =>
    rw [applyCall, startListener]
    rcases hr : s.running with _ | _
    · rw [hr] at h
      simp [hr, h]
    · simpa [hr] using h
  | stopC =>
    rw [applyCall, stopListener]
    rcases hr : s.running with _ | _ <;> rw [hr] at h <;> simp [h]

lemma foldl_thread_invariant (calls : List ListenerCall) :
    ∀ s : ListenerCtl, s.liveThreads = (if s.running then 1 else 0) →
      (calls.foldl applyCall s).liveThreads =
        if (calls.foldl applyCall s).running then 1 else 0 := by
  induction calls with
  | nil => intro s h; exact h
  | cons c cs ih =>
    intro s h
    exact ih (applyCall s c) (applyCall_thread_invariant s h c)

/-- C10: `start()` while running is a no-op (state unchanged, no second
thread), `start();start()` equals `start()`, and over every call sequence
at most one worker thread is ever live. -/
theorem start_idempotent_single_thread :
    (∀ s : ListenerCtl, s.running = true → startListener s = s) ∧
    (∀ s : ListenerCtl, startListener (startListener s) = startListener s) ∧
    (∀ calls : List ListenerCall,
      (calls.foldl applyCall initialListener).liveThreads ≤ 1) := by
  refine ⟨?_, ?_, ?_⟩
  · intro s h
    simp [startListener, h]
  · intro s
    by_cases hr : s.running <;> simp [startListener, hr]
  · intro calls
    have h := foldl_thread_invariant calls initialListener
      (by simp [initialListener])
    rw [h]
    split <;> omega

theorem start_idempotent_single_thread_witness :
    ({ running := true, liveThreads := 1 : ListenerCtl }).running = true ∧
    startListener { running := true, liveThreads := 1 } =
      { running := true, liveThreads := 1 } ∧
    ([ListenerCall.startC, .startC, .stopC, .startC].foldl applyCall
      initialListener).liveThreads ≤ 1 :=
  ⟨rfl, start_idempotent_single_thread.1 _ rfl,
    start_idempotent_single_thread.2.2 _⟩

/-! ### Confirmation state machine properties -/

/-- `scoreDecide` through the lens of `accepted`: on an accepted hop it
runs the hysteresis update and fires exactly when the updated count
reaches the confirm-hop count. -/
lemma scoreDecide_of_accepted (cfg : DetectConfig R) (scores : List (String × R))
    (st : ConfirmSt) (l : String) (h : accepted cfg scores = some l) :
    scoreDecide cfg scores st =
      if (updateCandidate l st).count < cfg.confirmHops
      then (updateCandidate l st, none)
      else (idleConfirm, some l) := by
  cases hr : rankDesc scores with
  | nil => simp [accepted, hr] at h
  | cons b rest =>
    obtain ⟨bl, bs⟩ := b
    simp only [accepted, hr] at h
    simp only [scoreDecide, hr]
    by_cases hth : bs < cfg.matchThreshold
    · simp [hth] at h
    · by_cases hm : marginTooSmall cfg bs rest = true
      · simp [hth, hm] at h
      · simp only [hth, hm, if_false, Bool.false_eq_true, if_neg] at h ⊢
        simp only [if_neg hth, Option.some.injEq] at h
        subst h
        rfl

/-- A hop can only fire the label the threshold/margin gates accepted,
and only when the hysteresis count has reached the confirm-hop count. -/
lemma scoreDecide_fired (cfg : DetectConfig R) (scores : List (String × R))
    (st st' : ConfirmSt) (l : String)
    (h : scoreDecide cfg scores st = (st', some l)) :
    accepted cfg scores = some l ∧
      cfg.confirmHops ≤ (updateCandidate l st).count := by
  cases hr : rankDesc scores with
  | nil => simp [scoreDecide, hr] at h
  | cons b rest =>
    obtain ⟨bl, bs⟩ := b
    simp only [scoreDecide, hr] at h
    by_cases hth : bs < cfg.matchThreshold
    · simp [hth] at h
    · by_cases hm : marginTooSmall cfg bs rest = true
      · simp [hth, hm] at h
      · simp only [if_neg hth, hm, Bool.false_eq_true, if_false, if_neg] at h
        by_cases hc : (updateCandidate bl st).count < cfg.confirmHops
        · simp [hc] at h
        · simp only [if_neg hc, Prod.mk.injEq, Option.some.injEq] at h
          obtain ⟨-, rfl⟩ := h
          refine ⟨?_, not_lt.mp hc⟩
          simp [accepted, hr, hth, hm]

/-- A run of hops that all accept the same label `A`, started from a state
already on candidate `A` with too few counts to fire, just accumulates
counts and fires nothing. -/
lemma runDecide_accepted_run (cfg : DetectConfig R) (A : String) :
    ∀ (hops : List (List (String × R))) (st : ConfirmSt),
      (∀ s ∈ hops, accepted cfg s = some A) → st.label = some A →
      st.count + hops.length < cfg.confirmHops →
      runDecide cfg st hops =
        ({ label := some A, count := st.count + hops.length }, []) := by
  intro hops
  induction hops with
  | nil =>
    intro st _ hlab _
    obtain ⟨lab, cnt⟩ := st
    simp only [ConfirmSt.label] at hlab
    subst hlab
    simp [runDecide]
  | cons f fr ih =>
    intro st hA hlab hcnt
    have hacc : accepted cfg f = some A := hA f (by simp)
    rw [runDecide, scoreDecide_of_accepted cfg f st A hacc]
    have hupd : updateCandidate A st = ⟨some A, st.count + 1⟩ := by
      rw [updateCandidate, if_pos hlab.symm, hlab]
    rw [hupd]
    have hlt : st.count + 1 < cfg.confirmHops := by
      simp only [List.length_cons] at hcnt
      omega
    rw [if_pos (by simpa using hlt)]
    show runDecide cfg ⟨some A, st.count + 1⟩ fr = _
    rw [ih ⟨some A, st.count + 1⟩ (fun s hs => hA s (by simp [hs])) rfl
      (by show st.count + 1 + fr.length < cfg.confirmHops
          simp only [List.length_cons] at hcnt
          omega)]
    simp only [List.length_cons, Prod.mk.injEq, ConfirmSt.mk.injEq, and_true,
      true_and]
    omega

/-- Holding candidate `A` and then seeing an accepted hop for a different
label `B` replaces the candidate with count 1 and cannot fire (the
confirm-hop count being at least 2). -/
lemma runDecide_A_then_B (cfg : DetectConfig R) (A B : String) (hBA : B ≠ A)
    (hN : 2 ≤ cfg.confirmHops) :
    ∀ (front : List (List (String × R))) (lastScores : List (String × R))
      (st : ConfirmSt),
      (∀ s ∈ front, accepted cfg s = some A) →
      accepted cfg lastScores = some B →
      st.label = some A → st.count + front.length + 1 ≤ cfg.confirmHops →
      (runDecide cfg st (front ++ [lastScores])).2 = [] := by
  intro front
  induction front with
  | nil =>
    intro lastScores st _ hB hlab _
    rw [List.nil_append, runDecide, scoreDecide_of_accepted cfg lastScores st B hB]
    have hupd : updateCandidate B st = ⟨some B, 1⟩ := by
      rw [updateCandidate, if_neg]
      intro hcontra
      rw [hlab, Option.some.injEq] at hcontra
      exact hBA hcontra
    rw [hupd]
    have h1 : (1 : ℕ) < cfg.confirmHops := by omega
    rw [if_pos (by simpa using h1)]
    simp [runDecide]
  | cons f fr ih =>
    intro lastScores st hA hB hlab hcnt
    rw [List.cons_append, runDecide,
      scoreDecide_of_accepted cfg f st A (hA f (by simp))]
    have hupd : updateCandidate A st = ⟨some A, st.count + 1⟩ := by
      rw [updateCandidate, if_pos hlab.symm, hlab]
    rw [hupd]
    have hlt : st.count + 1 < cfg.confirmHops := by
      simp only [List.length_cons] at hcnt
      omega
    rw [if_pos (by simpa using hlt)]
    exact ih lastScores ⟨some A, st.count + 1⟩ (fun s hs => hA s (by simp [hs]))
      hB rfl (by simp only [List.length_cons, ConfirmSt.count] at hcnt ⊢; omega)

/-- C1: the callback fires only for a label accepted on that hop whose
hysteresis count has reached the confirm-hop count; an accepted label equal
to the candidate increments the count, a different one replaces the
candidate with count 1; and a qualifying label held for
`confirm_hops - 1` hops followed by a different accepted label never fires
a callback. -/
theorem confirm_consecutive_hops :
    (∀ (cfg : DetectConfig R) (scores : List (String × R)) (st st' : ConfirmSt)
      (l : String), scoreDecide cfg scores st = (st', some l) →
      accepted cfg scores = some l ∧
        cfg.confirmHops ≤ (updateCandidate l st).count) ∧
    (∀ (st : ConfirmSt) (A : String), st.label = some A →
      updateCandidate A st = { label := some A, count := st.count + 1 }) ∧
    (∀ (st : ConfirmSt) (A : String), st.label ≠ some A →
      updateCandidate A st = { label := some A, count := 1 }) ∧
    (∀ (cfg : DetectConfig R) (front : List (List (String × R)))
      (lastScores : List (String × R)) (A B : String),
      2 ≤ cfg.confirmHops → front.length = cfg.confirmHops - 1 →
      (∀ s ∈ front, accepted cfg s = some A) →
      accepted cfg lastScores = some B → B ≠ A →
      (runDecide cfg idleConfirm (front ++ [lastScores])).2 = []) := by
  refine ⟨scoreDecide_fired, ?_, ?_, ?_⟩
  · intro st A hlab
    rw [updateCandidate, if_pos hlab.symm, hlab]
  · intro st A hlab
    rw [updateCandidate, if_neg fun hcontra => hlab hcontra.symm]
  · intro cfg front lastScores A B hN hlen hA hB hBA
    cases front with
    | nil =>
      simp only [List.length_nil] at hlen
      omega
    | cons f fr =>
      rw [List.cons_append, runDecide,
        scoreDecide_of_accepted cfg f idleConfirm A (hA f (by simp))]
      have hupd : updateCandidate A idleConfirm = ⟨some A, 1⟩ := by
        rw [updateCandidate, if_neg (by simp [idleConfirm])]
      rw [hupd]
      have h1 : (1 : ℕ) < cfg.confirmHops := by omega
      rw [if_pos (by simpa using h1)]
      apply runDecide_A_then_B cfg A B hBA hN fr lastScores ⟨some A, 1⟩
        (fun s hs => hA s (by simp [hs])) hB rfl
      simp only [List.length_cons, ConfirmSt.count] at hlen ⊢
      omega

theorem confirm_consecutive_hops_witness :
    (scoreDecide defaultConfig [("VICTORY", (1 : ℚ))]
        ⟨some "VICTORY", 1⟩ = (idleConfirm, some "VICTORY") ∧
      accepted defaultConfig [("VICTORY", (1 : ℚ))] = some "VICTORY" ∧
      defaultConfig.confirmHops ≤
        (updateCandidate "VICTORY" ⟨some "VICTORY", 1⟩).count) ∧
    ((⟨some "VICTORY", 1⟩ : ConfirmSt).label = some "VICTORY" ∧
      updateCandidate "VICTORY" ⟨some "VICTORY", 1⟩ =
        { label := some "VICTORY", count := 2 }) ∧
    (idleConfirm.label ≠ some "VICTORY" ∧
      updateCandidate "VICTORY" idleConfirm =
        { label := some "VICTORY", count := 1 }) ∧
    (2 ≤ defaultConfig.confirmHops ∧
      ([[("VICTORY", (1 : ℚ))]] : List (List (String × ℚ))).length =
        defaultConfig.confirmHops - 1 ∧
      (∀ s ∈ ([[("VICTORY", (1 : ℚ))]] : List (List (String × ℚ))),
        accepted defaultConfig s = some "VICTORY") ∧
      accepted defaultConfig [("DEFEAT", (1 : ℚ))] = some "DEFEAT" ∧
      ("DEFEAT" : String) ≠ "VICTORY" ∧
      (runDecide defaultConfig idleConfirm
        ([[("VICTORY", (1 : ℚ))]] ++ [[("DEFEAT", (1 : ℚ))]])).2 = []) := by
  have hsd : scoreDecide defaultConfig [("VICTORY", (1 : ℚ))]
      ⟨some "VICTORY", 1⟩ = (idleConfirm, some "VICTORY") := by
    norm_num [scoreDecide, rankDesc, defaultConfig, marginTooSmall,
      updateCandidate, idleConfirm]
  have haccV : accepted defaultConfig [("VICTORY", (1 : ℚ))] = some "VICTORY" := by
    norm_num [accepted, rankDesc, defaultConfig, marginTooSmall]
  have haccD : accepted defaultConfig [("DEFEAT", (1 : ℚ))] = some "DEFEAT" := by
    norm_num [accepted, rankDesc, defaultConfig, marginTooSmall]
  refine ⟨⟨hsd, (confirm_consecutive_hops (R := ℚ)).1 defaultConfig _ _ _ _ hsd⟩,
    ⟨rfl, (confirm_consecutive_hops (R := ℚ)).2.1 _ "VICTORY" rfl⟩,
    ⟨by simp [idleConfirm], (confirm_consecutive_hops (R := ℚ)).2.2.1 _ "VICTORY"
      (by simp [idleConfirm])⟩,
    ⟨by norm_num [defaultConfig], by simp [defaultConfig], ?_, haccD,
      by decide, ?_⟩⟩
  · intro s hs
    simp only [List.mem_singleton] at hs
    rw [hs]
    exact haccV
  · apply (confirm_consecutive_hops (R := ℚ)).2.2.2 defaultConfig _ _ "VICTORY" "DEFEAT"
      (by norm_num [defaultConfig]) (by simp [defaultConfig]) _ haccD (by decide)
    intro s hs
    simp only [List.mem_singleton] at hs
    rw [hs]
    exact haccV

/-- C5: whenever a runner-up exists in the ranked scores and the gap to
the best score is below the configured margin, the hop resets the
confirmation state and fires nothing, regardless of the best score. -/
theorem margin_gap_resets (cfg : DetectConfig R) (scores : List (String × R))
    (st : ConfirmSt) (b r : String × R) (rest : List (String × R))
    (hrank : rankDesc scores = b :: r :: rest)
    (hgap : b.2 - r.2 < cfg.matchMargin) :
    scoreDecide cfg scores st = (idleConfirm, none) := by
  obtain ⟨bl, bs⟩ := b
  obtain ⟨rl, rs⟩ := r
  simp only [scoreDecide, hrank]
  by_cases hth : bs < cfg.matchThreshold
  · simp [hth]
  · have hm : marginTooSmall cfg bs ((rl, rs) :: rest) = true := by
      simp only [marginTooSmall, decide_eq_true_eq]
      exact hgap
    simp [hth, hm]

theorem margin_gap_resets_witness :
    rankDesc (R := ℚ) [("VICTORY", 19/20), ("DEFEAT", 9/10)] =
      [("VICTORY", 19/20), ("DEFEAT", 9/10)] ∧
    (19/20 : ℚ) - 9/10 < defaultConfig.matchMargin ∧
    scoreDecide defaultConfig [("VICTORY", 19/20), ("DEFEAT", 9/10)]
      idleConfirm = (idleConfirm, none) := by
  have hrank : rankDesc (R := ℚ) [("VICTORY", 19/20), ("DEFEAT", 9/10)] =
      [("VICTORY", 19/20), ("DEFEAT", 9/10)] := by
    norm_num [rankDesc, scoreGE]
  have hgap : ((("VICTORY", (19/20 : ℚ)) : String × ℚ)).2 -
      ((("DEFEAT", (9/10 : ℚ)) : String × ℚ)).2 < defaultConfig.matchMargin := by
    norm_num [defaultConfig]
  exact ⟨hrank, hgap,
    margin_gap_resets defaultConfig _ idleConfirm _ _ _ hrank hgap⟩

/-! ### Ring buffer properties -/

lemma takeLast_all {α : Type} (n : ℕ) (l : List α) (h : l.length ≤ n) :
    takeLast n l = l := by
  rw [takeLast, Nat.sub_eq_zero_of_le h, List.drop_zero]

lemma takeLast_length {α : Type} (n : ℕ) (l : List α) (h : n ≤ l.length) :
    (takeLast n l).length = n := by
  rw [takeLast, List.length_drop]
  omega

/-- The ring-buffer update always leaves exactly the last `buf` samples of
the old buffer followed by the merged hop. -/
lemma ringUpdate_eq_takeLast {α : Type} (buf : ℕ) (ring m : List α)
    (h : ring.length = buf) :
    ringUpdate buf ring m = takeLast buf (ring ++ m) := by
  subst h
  by_cases hc : ring.length < m.length
  · have hmdl : (m.drop (m.length - ring.length)).length = ring.length := by
      rw [List.length_drop]
      omega
    have hA1 : ringUpdate ring.length ring m = m.drop (m.length - ring.length) := by
      simp only [ringUpdate, if_pos hc, hmdl, List.drop_length, List.take_length,
        List.nil_append, Nat.sub_self, List.take_zero]
    have hA2 : takeLast ring.length (ring ++ m) =
        m.drop (m.length - ring.length) := by
      rw [takeLast, List.length_append, List.drop_append_eq_append_drop,
        List.drop_eq_nil_of_le (by omega), List.nil_append]
      congr 1
      omega
    rw [hA1, hA2]
  · push_neg at hc
    have hdl : (ring.drop m.length).length = ring.length - m.length :=
      List.length_drop _ _
    have hB1 : ringUpdate ring.length ring m = ring.drop m.length ++ m := by
      simp only [ringUpdate, if_neg (not_lt.mpr hc)]
      have e1 : (ring.drop m.length ++ ring.take m.length).length - m.length =
          ring.length - m.length := by
        rw [List.length_append, List.length_drop, List.length_take]
        omega
      rw [e1, List.take_append_eq_append_take, List.take_of_length_le (le_of_eq hdl),
        hdl, Nat.sub_self, List.take_zero, List.append_nil]
    have hB2 : takeLast ring.length (ring ++ m) = ring.drop m.length ++ m := by
      rw [takeLast, List.length_append, List.drop_append_eq_append_drop]
      congr 1
      · congr 1
        omega
      · have e2 : ring.length + m.length - ring.length - ring.length =
            m.length - ring.length := by omega
        rw [e2, Nat.sub_eq_zero_of_le hc, List.drop_zero]
    rw [hB1, hB2]

/-- Suffix extraction composes across successive ring updates. -/
lemma takeLast_takeLast_append {α : Type} (n m : ℕ) (X Y : List α)
    (h : n ≤ m + Y.length) :
    takeLast n (takeLast m X ++ Y) = takeLast n (X ++ Y) := by
  simp only [takeLast, List.length_append, List.length_drop]
  rw [List.drop_append_eq_append_drop, List.drop_append_eq_append_drop,
    List.drop_drop, List.length_drop]
  congr 1
  · congr 1
    omega
  · congr 1
    omega

/-- One feed step preserves the accumulator invariant: the buffer length,
the pending sample count, and the fact that buffer followed by pending
samples is exactly the suffix of everything ever seen. -/
lemma feedChunk_inv (hop buf : ℕ) (st : AccState ℚ) (c : List ℚ)
    (h1 : st.ring.length = buf) (h2 : st.pendingLen = st.pending.flatten.length) :
    (feedChunk hop buf st c).ring.length = buf ∧
    (feedChunk hop buf st c).pendingLen =
      (feedChunk hop buf st c).pending.flatten.length ∧
    (feedChunk hop buf st c).ring ++ (feedChunk hop buf st c).pending.flatten =
      takeLast (buf + (feedChunk hop buf st c).pendingLen)
        (st.ring ++ st.pending.flatten ++ c) := by
  rw [feedChunk]
  by_cases hlt : st.pendingLen + c.length < hop
  · rw [if_pos hlt]
    refine ⟨h1, by simp [h2], ?_⟩
    have hlen : (st.ring ++ st.pending.flatten ++ c).length =
        buf + (st.pendingLen + c.length) := by
      simp only [List.length_append, h1, h2]
      omega
    rw [takeLast_all _ _ (le_of_eq hlen), List.append_assoc]
    simp
  · rw [if_neg hlt]
    have hflat : (st.pending ++ [c]).flatten = st.pending.flatten ++ c := by
      simp
    have htot : buf ≤ (st.ring ++ (st.pending.flatten ++ c)).length := by
      simp only [List.length_append, h1]
      omega
    refine ⟨?_, by simp, ?_⟩
    · show (ringUpdate buf st.ring (st.pending ++ [c]).flatten).length = buf
      rw [hflat, ringUpdate_eq_takeLast buf _ _ h1]
      exact takeLast_length _ _ htot
    · show ringUpdate buf st.ring (st.pending ++ [c]).flatten ++
          List.flatten [] = takeLast (buf + 0) (st.ring ++ st.pending.flatten ++ c)
      rw [hflat, ringUpdate_eq_takeLast buf _ _ h1, List.flatten_nil,
        List.append_nil, Nat.add_zero, List.append_assoc]

/-- The accumulator invariant over any sequence of fed chunks. -/
lemma feedChunks_inv (hop buf : ℕ) (chunks : List (List ℚ)) :
    ∀ st : AccState ℚ, st.ring.length = buf →
      st.pendingLen = st.pending.flatten.length →
      (feedChunks hop buf st chunks).ring.length = buf ∧
      (feedChunks hop buf st chunks).pendingLen =
        (feedChunks hop buf st chunks).pending.flatten.length ∧
      (feedChunks hop buf st chunks).ring ++
          (feedChunks hop buf st chunks).pending.flatten =
        takeLast (buf + (feedChunks hop buf st chunks).pendingLen)
          (st.ring ++ st.pending.flatten ++ chunks.flatten) := by
  induction chunks with
  | nil =>
    intro st h1 h2
    refine ⟨h1, h2, ?_⟩
    rw [feedChunks, List.foldl_nil, List.flatten_nil, List.append_nil]
    rw [takeLast_all]
    simp only [List.length_append, h1, h2]
    omega
  | cons c cs ih =>
    intro st h1 h2
    have hstep := feedChunk_inv hop buf st c h1 h2
    have hrec := ih (feedChunk hop buf st c) hstep.1 hstep.2.1
    have hfold : feedChunks hop buf st (c :: cs) =
        feedChunks hop buf (feedChunk hop buf st c) cs := by
      rw [feedChunks, List.foldl_cons, feedChunks]
    rw [hfold]
    refine ⟨hrec.1, hrec.2.1, ?_⟩
    rw [hrec.2.2, hstep.2.2]
    have hbound : buf + (feedChunks hop buf (feedChunk hop buf st c) cs).pendingLen ≤
        buf + (feedChunk hop buf st c).pendingLen + cs.flatten.length := by
      have hlenq := congrArg List.length hrec.2.2
      simp only [List.length_append, hrec.1, ← hrec.2.1, takeLast,
        List.length_drop, hstep.1, ← hstep.2.1] at hlenq
      omega
    rw [takeLast_takeLast_append _ _ _ _ (by omega)]
    congr 1
    simp [List.append_assoc]

/-- C3: for any sequence of chunk sizes, every ring-buffer state reached
by the accumulator has exactly `bufferSamples` samples, and its content is
exactly the most recent processed samples in arrival order (the zero
initial buffer followed by all samples merged so far, truncated to its
final `bufferSamples` entries). -/
theorem ring_buffer_invariant (hopSamples bufferSamples : ℕ)
    (hhop : 1 ≤ hopSamples) (chunks : List (List ℚ)) :
    (feedChunks hopSamples bufferSamples
        ⟨List.replicate bufferSamples 0, [], 0⟩ chunks).ring.length =
      bufferSamples ∧
    (feedChunks hopSamples bufferSamples
        ⟨List.replicate bufferSamples 0, [], 0⟩ chunks).ring =
      takeLast bufferSamples
        (List.replicate bufferSamples (0 : ℚ) ++
          chunks.flatten.take (chunks.flatten.length -
            (feedChunks hopSamples bufferSamples
              ⟨List.replicate bufferSamples 0, [], 0⟩ chunks).pendingLen)) := by
  have hinv := feedChunks_inv hopSamples bufferSamples chunks
    ⟨List.replicate bufferSamples 0, [], 0⟩ (by simp) (by simp)
  obtain ⟨hl, hp, hsuf⟩ := hinv
  refine ⟨hl, ?_⟩
  set st := feedChunks hopSamples bufferSamples
    ⟨List.replicate bufferSamples 0, [], 0⟩ chunks
  simp only [List.flatten_nil, List.append_nil] at hsuf
  -- lengths give: pendingLen is at most the total number of fed samples
  have hlenq := congrArg List.length hsuf
  simp only [List.length_append, hl, ← hp, takeLast, List.length_drop,
    List.length_replicate] at hlenq
  have hple : st.pendingLen ≤ chunks.flatten.length := by omega
  -- extract the ring as the first `bufferSamples` entries of the suffix
  have hring : st.ring = (st.ring ++ st.pending.flatten).take bufferSamples :=
    (List.take_left' hl).symm
  rw [hring, hsuf, takeLast, takeLast]
  simp only [List.length_append, List.length_replicate, List.length_take]
  have e1 : bufferSamples + chunks.flatten.length -
      (bufferSamples + st.pendingLen) = chunks.flatten.length - st.pendingLen := by
    omega
  have e2 : bufferSamples + min (chunks.flatten.length - st.pendingLen)
      chunks.flatten.length - bufferSamples =
      chunks.flatten.length - st.pendingLen := by
    omega
  rw [e1, e2]
  have e3 : (List.replicate bufferSamples (0 : ℚ) ++ chunks.flatten).take
      (bufferSamples + (chunks.flatten.length - st.pendingLen)) =
      List.replicate bufferSamples (0 : ℚ) ++
        chunks.flatten.take (chunks.flatten.length - st.pendingLen) := by
    rw [List.take_append_eq_append_take,
      List.take_of_length_le (by rw [List.length_replicate]; omega),
      List.length_replicate]
    congr 2
    omega
  rw [← e3, List.drop_take]
  congr 1
  omega

theorem ring_buffer_invariant_witness :
    1 ≤ 2 ∧
    (feedChunks 2 3 ⟨List.replicate 3 (0 : ℚ), [], 0⟩ [[1], [2, 3], [4]]).ring =
      [1, 2, 3] ∧
    (feedChunks 2 3 ⟨List.replicate 3 (0 : ℚ), [], 0⟩
        [[1], [2, 3], [4]]).ring.length = 3 ∧
    (feedChunks 2 3 ⟨List.replicate 3 (0 : ℚ), [], 0⟩ [[1], [2, 3], [4]]).ring =
      takeLast 3 (List.replicate 3 (0 : ℚ) ++
        ([[1], [2, 3], [4]] : List (List ℚ)).flatten.take
          ((([[1], [2, 3], [4]] : List (List ℚ)).flatten).length -
            (feedChunks 2 3 ⟨List.replicate 3 (0 : ℚ), [], 0⟩
              [[1], [2, 3], [4]]).pendingLen)) := by
  refine ⟨by norm_num, by rfl, (ring_buffer_invariant 2 3 (by norm_num) _).1,
    (ring_buffer_invariant 2 3 (by norm_num) _).2⟩

/-! ### Hop-loop gate properties -/

/-- During the cooldown window, `hopProcess` does nothing at all: state
unchanged, loop continues, no callback. -/
lemma hopProcess_cooldown (cfg : DetectConfig ℝ) (refs : List (String × List ℝ))
    (now : ℝ) (st : LoopState) (h : now - st.lastTrigger < cfg.cooldownSeconds) :
    hopProcess cfg refs now st = (st, .cont) := by
  rw [hopProcess, if_pos h]

/-- C2: on a hop completed inside the cooldown window, the loop iteration
still merges the pending audio into the ring buffer but then skips
scoring entirely — no state change beyond the buffer, no callback; and
once the window has elapsed, a hop whose scores drive the confirmation
machine to fire does fire and records the trigger time. -/
theorem cooldown_window_enforced :
    (∀ (cfg : DetectConfig ℝ) (hopSamples bufferSamples : ℕ)
      (refs : List (String × List ℝ)) (now : ℝ) (chunk : List ℝ)
      (st : LoopState),
      ¬ (st.pendingLen + chunk.length < hopSamples) →
      now - st.lastTrigger < cfg.cooldownSeconds →
      iterStep cfg hopSamples bufferSamples refs now (.data chunk) st =
        ({ st with
            ring := ringUpdate bufferSamples st.ring (st.pending ++ [chunk]).flatten
            pending := []
            pendingLen := 0 }, .cont)) ∧
    (∀ (cfg : DetectConfig ℝ) (refs : List (String × List ℝ)) (now : ℝ)
      (st : LoopState) (c : ConfirmSt) (l : String),
      ¬ (now - st.lastTrigger < cfg.cooldownSeconds) →
      ¬ (rms st.ring < cfg.minRms) →
      scoreDecide cfg (computeScores refs st.ring) st.confirm = (c, some l) →
      hopProcess cfg refs now st =
        ({ st with lastLoud := now, confirm := c, lastTrigger := now },
          .fired l)) := by
  constructor
  · intro cfg hopSamples bufferSamples refs now chunk st hfull hcool
    simp only [iterStep]
    rw [if_neg hfull]
    exact hopProcess_cooldown cfg refs now _ hcool
  · intro cfg refs now st c l hcool hrms hfire
    rw [hopProcess, if_neg hcool, if_neg hrms, hfire]

/-- C9: while the cooldown gate is active the energy gate and the
silence-reconnect check are skipped and the last-loud timestamp is not
refreshed (the state is returned untouched and the loop never breaks on
such hops); the first silent hop after the window with a stale last-loud
timestamp breaks the loop immediately. -/
theorem cooldown_skips_energy_gate :
    (∀ (cfg : DetectConfig ℝ) (refs : List (String × List ℝ)) (now : ℝ)
      (st : LoopState), now - st.lastTrigger < cfg.cooldownSeconds →
      hopProcess cfg refs now st = (st, .cont)) ∧
    (∀ (cfg : DetectConfig ℝ) (refs : List (String × List ℝ)) (now : ℝ)
      (st : LoopState), ¬ (now - st.lastTrigger < cfg.cooldownSeconds) →
      rms st.ring < cfg.minRms →
      silenceReconnectThreshold < now - st.lastLoud →
      hopProcess cfg refs now st = (st, .brk)) := by
  constructor
  · intro cfg refs now st h
    exact hopProcess_cooldown cfg refs now st h
  · intro cfg refs now st h1 h2 h3
    rw [hopProcess, if_neg h1, if_pos h2, if_pos h3]

/-- RMS of the example buffer holding the reference at the tail. -/
lemma rms_eval_example : rms [0, 0, 2, 0] = 1 := by
  have h : (([0, 0, 2, 0] : List ℝ).map fun x => x ^ 2).sum /
      (([0, 0, 2, 0] : List ℝ).length : ℝ) = 1 := by
    norm_num
  rw [rms, h, Real.sqrt_one]

/-- RMS of a silent buffer. -/
lemma rms_zero_example : rms [0, 0, 0, 0] = 0 := by
  have h : (([0, 0, 0, 0] : List ℝ).map fun x => x ^ 2).sum /
      (([0, 0, 0, 0] : List ℝ).length : ℝ) = 0 := by
    norm_num
  rw [rms, h, Real.sqrt_zero]

/-- The per-hop scores of the single VICTORY reference against the example
buffer. -/
lemma computeScores_eval_example :
    computeScores [("VICTORY", [2, 0])] [0, 0, 2, 0] = [("VICTORY", (1 : ℝ))] := by
  simp [computeScores, ncc_eval_example]

/-- The confirmation step fires on the example scores from candidate
count 1 under the shipped configuration. -/
lemma scoreDecide_eval_example :
    scoreDecide defaultConfigR [("VICTORY", (1 : ℝ))] ⟨some "VICTORY", 1⟩ =
      (idleConfirm, some "VICTORY") := by
  norm_num [scoreDecide, rankDesc, defaultConfigR, marginTooSmall,
    updateCandidate, idleConfirm]

theorem cooldown_window_enforced_witness :
    (¬ ((⟨[0, 0, 0, 0], [], 0, idleConfirm, 100, 0⟩ :
          LoopState).pendingLen + ([0, 2] : List ℝ).length < 2) ∧
      (110 : ℝ) - 100 < defaultConfigR.cooldownSeconds ∧
      iterStep defaultConfigR 2 4 [] 110 (.data [0, 2])
          ⟨[0, 0, 0, 0], [], 0, idleConfirm, 100, 0⟩ =
        (⟨ringUpdate 4 [0, 0, 0, 0] (([] : List (List ℝ)) ++ [[0, 2]]).flatten,
          [], 0, idleConfirm, 100, 0⟩, .cont)) ∧
    (¬ ((200 : ℝ) - 100 < defaultConfigR.cooldownSeconds) ∧
      ¬ (rms [0, 0, 2, 0] < defaultConfigR.minRms) ∧
      scoreDecide defaultConfigR
          (computeScores [("VICTORY", [2, 0])] [0, 0, 2, 0])
          ⟨some "VICTORY", 1⟩ = (idleConfirm, some "VICTORY") ∧
      hopProcess defaultConfigR [("VICTORY", [2, 0])] 200
          ⟨[0, 0, 2, 0], [], 0, ⟨some "VICTORY", 1⟩, 100, 90⟩ =
        (⟨[0, 0, 2, 0], [], 0, idleConfirm, 200, 200⟩, .fired "VICTORY")) := by
  have hfull : ¬ ((⟨[0, 0, 0, 0], [], 0, idleConfirm, 100, 0⟩ :
      LoopState).pendingLen + ([0, 2] : List ℝ).length < 2) := by
    norm_num
  have hcool1 : (110 : ℝ) - 100 < defaultConfigR.cooldownSeconds := by
    norm_num [defaultConfigR]
  have hcool2 : ¬ ((200 : ℝ) - 100 < defaultConfigR.cooldownSeconds) := by
    norm_num [defaultConfigR]
  have hrms : ¬ (rms [0, 0, 2, 0] < defaultConfigR.minRms) := by
    rw [rms_eval_example]
    norm_num [defaultConfigR]
  have hfire : scoreDecide defaultConfigR
      (computeScores [("VICTORY", [2, 0])] [0, 0, 2, 0])
      (⟨some "VICTORY", 1⟩ : ConfirmSt) = (idleConfirm, some "VICTORY") := by
    rw [computeScores_eval_example, scoreDecide_eval_example]
  refine ⟨⟨hfull, hcool1, cooldown_window_enforced.1 defaultConfigR 2 4 [] 110
      [0, 2] _ hfull hcool1⟩,
    ⟨hcool2, hrms, hfire, cooldown_window_enforced.2 defaultConfigR
      [("VICTORY", [2, 0])] 200 ⟨[0, 0, 2, 0], [], 0, ⟨some "VICTORY", 1⟩, 100, 90⟩
      idleConfirm "VICTORY" hcool2 hrms hfire⟩⟩

theorem cooldown_skips_energy_gate_witness :
    ((110 : ℝ) - 100 < defaultConfigR.cooldownSeconds ∧
      hopProcess defaultConfigR [] 110 ⟨[0, 0, 0, 0], [], 0, idleConfirm, 100, 0⟩ =
        (⟨[0, 0, 0, 0], [], 0, idleConfirm, 100, 0⟩, .cont)) ∧
    (¬ ((200 : ℝ) - 100 < defaultConfigR.cooldownSeconds) ∧
      rms [0, 0, 0, 0] < defaultConfigR.minRms ∧
      silenceReconnectThreshold < (200 : ℝ) - 0 ∧
      hopProcess defaultConfigR [] 200 ⟨[0, 0, 0, 0], [], 0, idleConfirm, 100, 0⟩ =
        (⟨[0, 0, 0, 0], [], 0, idleConfirm, 100, 0⟩, .brk)) := by
  have h1 : (110 : ℝ) - 100 < defaultConfigR.cooldownSeconds := by
    norm_num [defaultConfigR]
  have h2 : ¬ ((200 : ℝ) - 100 < defaultConfigR.cooldownSeconds) := by
    norm_num [defaultConfigR]
  have h3 : rms [0, 0, 0, 0] < defaultConfigR.minRms := by
    rw [rms_zero_example]
    norm_num [defaultConfigR]
  have h4 : silenceReconnectThreshold < (200 : ℝ) - 0 := by
    norm_num [silenceReconnectThreshold]
  exact ⟨⟨h1, cooldown_skips_energy_gate.1 defaultConfigR [] 110 _ h1⟩,
    ⟨h2, h3, h4, cooldown_skips_energy_gate.2 defaultConfigR [] 200
      ⟨[0, 0, 0, 0], [], 0, idleConfirm, 100, 0⟩ h2 h3 h4⟩⟩

end OverwatchLooker
